import Mathlib

/-!
Shallow embedding of the response grading, filtering and analytics core of
the `formatic` repository (src/components/ModeratorDashboard.tsx).

JavaScript values that can occur as a stored answer are modelled by `JSVal`.
JavaScript numbers reached by this code are integers and terminating
decimals, modelled exactly by `DecNum` (a mantissa over a power of ten)
with real-valued equality; double rounding at these magnitudes is exact,
so the model agrees with the source on every value the core produces.
-/

/-- Subset of JavaScript values that occur as raw answers: `null`,
`undefined`, numbers (integral, as stored scores/inputs), strings, and
arrays of strings (checkbox selections). -/
inductive JSVal where
  | vNull
  | vUndefined
  | vNum (n : Int)
  | vStr (s : String)
  | vArr (l : List String)
deriving DecidableEq

/-- JavaScript truthiness for the values of `JSVal`: `null`, `undefined`,
`0` and `""` are falsy; arrays are always truthy. -/
def jsTruthy : JSVal → Bool
  | .vNull => false
  | .vUndefined => false
  | .vNum n => n != 0
  | .vStr s => s != ""
  | .vArr _ => true

/-- JavaScript `String(v)` for the modelled values (integers print in
decimal, arrays join with a comma). -/
def jsToString : JSVal → String
  | .vNull => "null"
  | .vUndefined => "undefined"
  | .vNum n => toString n
  | .vStr s => s
  | .vArr l => String.intercalate "," l

/-- Characters the code's split regex `[\s-]+` matches: whitespace or `-`. -/
def isSepChar (c : Char) : Bool := c.isWhitespace || c == '-'

/-- Whitespace trim on both ends, as JavaScript `String.prototype.trim`. -/
def jsTrim (s : String) : String :=
  String.mk (((s.data.dropWhile Char.isWhitespace).reverse.dropWhile Char.isWhitespace).reverse)

/-- Lowercasing as JavaScript `String.prototype.toLowerCase` (character-wise). -/
def jsToLower (s : String) : String := String.mk (s.data.map Char.toLower)

/-- Worker for `jsSplitSepRuns`: walks the characters accumulating the
current token (reversed); a run of separators ends the token, a trailing
run contributes a final empty token, exactly as JavaScript
`str.split(/[\s-]+/)`. -/
def splitGo : List Char → List Char → List String
  | [], acc => [String.mk acc.reverse]
  | c :: cs, acc =>
    if isSepChar c then
      match cs with
      | [] => [String.mk acc.reverse, ""]
      | d :: ds =>
        if isSepChar d then splitGo (d :: ds) acc
        else String.mk acc.reverse :: splitGo (d :: ds) []
    else splitGo cs (c :: acc)

/-- JavaScript `str.split(/[\s-]+/)`: split on maximal runs of whitespace
or hyphens; a leading or trailing run yields an empty token, and the empty
string splits to `[""]`. -/
def jsSplitSepRuns (s : String) : List String := splitGo s.data []

/-- Exact model of a JavaScript number arising in this core: the value
`man / 10 ^ exp`, a terminating decimal. -/
structure DecNum where
  man : Int
  exp : Nat
deriving DecidableEq

/-- Numeric (real-valued) equality of two `DecNum`s, as JavaScript `===`
compares two numbers: `a / 10^e = b / 10^f` iff `a·10^f = b·10^e`. -/
def decNumEq (a b : DecNum) : Bool :=
  a.man * (10 : Int) ^ b.exp == b.man * (10 : Int) ^ a.exp

/-- Rational value denoted by a `DecNum`. -/
def DecNum.val (d : DecNum) : Rat := (d.man : Rat) / (10 : Rat) ^ d.exp

/-- Numeric value of a list of decimal digit characters. -/
def digitsVal (ds : List Char) : Nat :=
  ds.foldl (fun n c => 10 * n + (c.toNat - '0'.toNat)) 0

/-- JavaScript `Number(str)` on an already-trimmed string, for decimal
literals: optional sign, digits, optional fraction (".5", "5.", "08" all
accepted; "" and non-numeric text give `none`, standing for `NaN` — the
code never reaches the `Number('') = 0` case because it guards on the
empty string separately). Hexadecimal, binary and exponent forms are not
modelled. -/
def parseJSNumber (s : String) : Option DecNum :=
  let core : List Char → Option DecNum := fun cs =>
    let ds := cs.takeWhile Char.isDigit
    let rest := cs.dropWhile Char.isDigit
    match rest with
    | [] => if ds.isEmpty then none else some ⟨(digitsVal ds : Int), 0⟩
    | '.' :: rest2 =>
      let fs := rest2.takeWhile Char.isDigit
      let rest3 := rest2.dropWhile Char.isDigit
      if rest3.isEmpty then
        if ds.isEmpty && fs.isEmpty then none
        else some ⟨(digitsVal ds * 10 ^ fs.length + digitsVal fs : Int), fs.length⟩
      else none
    | _ => none
  match s.data with
  | [] => none
  | '-' :: cs => (core cs).map (fun d => ⟨-d.man, d.exp⟩)
  | '+' :: cs => core cs
  | cs => core cs

/-- The number-word table of `normalizeToNumberOrString` (ones 0–19, tens,
hundred, thousand). -/
def numberWords : String → Option Nat
  | "zero" => some 0
  | "one" => some 1
  | "two" => some 2
  | "three" => some 3
  | "four" => some 4
  | "five" => some 5
  | "six" => some 6
  | "seven" => some 7
  | "eight" => some 8
  | "nine" => some 9
  | "ten" => some 10
  | "eleven" => some 11
  | "twelve" => some 12
  | "thirteen" => some 13
  | "fourteen" => some 14
  | "fifteen" => some 15
  | "sixteen" => some 16
  | "seventeen" => some 17
  | "eighteen" => some 18
  | "nineteen" => some 19
  | "twenty" => some 20
  | "thirty" => some 30
  | "forty" => some 40
  | "fifty" => some 50
  | "sixty" => some 60
  | "seventy" => some 70
  | "eighty" => some 80
  | "ninety" => some 90
  | "hundred" => some 100
  | "thousand" => some 1000
  | _ => none

/-- The for-loop of `normalizeToNumberOrString` over the split parts:
`total`/`subTotal` accumulation, `and` skipped, a value of at least 100
multiplies the subtotal (a zero subtotal counting as 1) into the total;
`none` models the `isNumberWord = false; break` path on an unrecognized
token, `some` carries the final `total + subTotal`. -/
def wordLoop : List String → Nat → Nat → Option Nat
  | [], total, sub => some (total + sub)
  | p :: ps, total, sub =>
    if p == "and" then wordLoop ps total sub
    else
      match numberWords p with
      | some v =>
        if 100 ≤ v then wordLoop ps (total + (if sub == 0 then 1 else sub) * v) 0
        else wordLoop ps total (sub + v)
      | none => none

/-- Result of answer normalization: a number or a canonical string. -/
inductive NormValue where
  | num (d : DecNum)
  | str (s : String)
deriving DecidableEq

/-- JavaScript `===` on normalization results: numbers compare by value,
strings verbatim, and a number never equals a string. -/
def normEq : NormValue → NormValue → Bool
  | .num a, .num b => decNumEq a b
  | .str s, .str t => s == t
  | _, _ => false

/-- The helper `normalizeToNumberOrString` of ModeratorDashboard.tsx:
`null`/`undefined` become `""`; the value is stringified, trimmed and
lowercased; a numeric string becomes its number; otherwise a phrase of
number words is parsed with `wordLoop`; otherwise the trimmed lowercased
string is returned unchanged. -/
def normalizeToNumberOrString (val : JSVal) : NormValue :=
  match val with
  | .vNull => .str ""
  | .vUndefined => .str ""
  | v =>
    let str := jsToLower (jsTrim (jsToString v))
    match parseJSNumber str with
    | some n => .num n
    | none =>
      let parts := jsSplitSepRuns str
      if parts.length == 0 || (parts.length == 1 && parts.headD "" == "") then .str str
      else
        match wordLoop parts 0 0 with
        | some total => .num ⟨(total : Int), 0⟩
        | none => .str str

/-- Question types of the form builder (`short_answer`, `multiple_choice`,
`checkbox`). -/
inductive QType where
  | short_answer
  | multiple_choice
  | checkbox
deriving DecidableEq

/-- A form question: identifier, display text, type, option labels
(used by choice types), and the expected answer, where `""` models an
absent `correctAnswer` (both are falsy, and the code only tests
truthiness). A question with `correctAnswer = ""` is ungraded. -/
structure Question where
  id : String
  text : String
  type : QType
  options : List String
  correctAnswer : String
deriving DecidableEq

/-- A form, reduced to the fields the grading core reads. -/
structure Form where
  questions : List Question
deriving DecidableEq

/-- A response: answer map from question id to stored value (a missing
entry reads as `undefined`, as a JavaScript property access does) and the
submission timestamp in epoch milliseconds. -/
structure Response where
  answers : List (String × JSVal)
  submitted_at : Int
deriving DecidableEq

/-- Property access `r.answers[qid]`: first binding for the key, else
`undefined`. -/
def lookupAnswer (r : Response) (qid : String) : JSVal :=
  match r.answers.find? (fun p => p.1 == qid) with
  | some p => p.2
  | none => .vUndefined

/-- The `checkAnswer` helper: falsy answers and ungraded questions are
never correct; `short_answer` compares both sides normalized under `===`;
`multiple_choice` compares the raw answer to the expected string under
`===` (only a string can match); `checkbox` requires the expected string
to be a member of the selected array. -/
def checkAnswer (q : Question) (userAnswer : JSVal) : Bool :=
  if !jsTruthy userAnswer then false
  else if q.correctAnswer == "" then false
  else
    match q.type with
    | .short_answer =>
      normEq (normalizeToNumberOrString userAnswer)
             (normalizeToNumberOrString (.vStr q.correctAnswer))
    | .multiple_choice =>
      match userAnswer with
      | .vStr s => s == q.correctAnswer
      | _ => false
    | .checkbox =>
      match userAnswer with
      | .vArr l => l.contains q.correctAnswer
      | _ => false

/-- The `calculateScore` helper: fold over the form's questions; each one
with a truthy `correctAnswer` adds one to `total` and, when `checkAnswer`
accepts the response's answer, one to `score`. -/
def calculateScore (form : Form) (r : Response) : Nat × Nat :=
  form.questions.foldl
    (fun acc q =>
      if q.correctAnswer != "" then
        ((if checkAnswer q (lookupAnswer r q.id) then acc.1 + 1 else acc.1), acc.2 + 1)
      else acc)
    (0, 0)

/-- JavaScript `parseInt` on a string: optional sign followed by leading
decimal digits, trailing non-digits ignored; `none` models `NaN` (no
digits). -/
def jsParseInt (s : String) : Option Int :=
  let core : List Char → Option Int := fun cs =>
    let ds := cs.takeWhile Char.isDigit
    if ds.isEmpty then none else some (digitsVal ds : Int)
  match (s.data.dropWhile Char.isWhitespace) with
  | '-' :: cs => (core cs).map (fun n => -n)
  | '+' :: cs => core cs
  | cs => core cs

/-- The filter state of the dashboard. The two date criteria model the
date-input strings by the epoch value of the parsed calendar date
(`none` models the empty, unset string); the score bounds and the keyword
criteria are the raw strings of the inputs, where `""` is unset/falsy. -/
structure FilterCriteria where
  dateFrom : Option Int
  dateTo : Option Int
  minScore : String
  maxScore : String
  questionId : String
  answerKeyword : String
deriving DecidableEq

/-- Milliseconds added by `toDate.setHours(23, 59, 59, 999)` to a
start-of-day timestamp: the whole end day is included. -/
def endOfDayMs : Int := 86399999

/-- Does `haystack` contain `needle` as a contiguous substring
(JavaScript `String.prototype.includes`)? -/
def charsPrefixOf : List Char → List Char → Bool
  | [], _ => true
  | _ :: _, [] => false
  | a :: as, b :: bs => a == b && charsPrefixOf as bs

/-- Substring search worker over character lists. -/
def charsContains : List Char → List Char → Bool
  | hay, needle =>
    match hay with
    | [] => needle.isEmpty
    | _ :: rest => charsPrefixOf needle hay || charsContains rest needle

/-- JavaScript `haystack.includes(needle)`. -/
def jsIncludes (haystack needle : String) : Bool :=
  charsContains haystack.data needle.data

/-- The date-range block of the filter (`1. Date Range Filter`): not
before a set `dateFrom`, not after the end of the day of a set `dateTo`. -/
def datePass (f : FilterCriteria) (r : Response) : Bool :=
  (match f.dateFrom with
   | some fromDate => !(r.submitted_at < fromDate)
   | none => true)
  &&
  (match f.dateTo with
   | some toDate => !(r.submitted_at > toDate + endOfDayMs)
   | none => true)

/-- The score block of the filter (`2. Score Filter`): entered only when
a score bound is truthy; a set bound excludes a score strictly below
`parseInt(minScore)` or strictly above `parseInt(maxScore)`, and a
comparison against `NaN` excludes nothing. -/
def scoreBlockPass (form : Form) (f : FilterCriteria) (r : Response) : Bool :=
  if f.minScore != "" || f.maxScore != "" then
    let score := (calculateScore form r).1
    (!(f.minScore != "" &&
       (match jsParseInt f.minScore with
        | some n => (score : Int) < n
        | none => false)))
    &&
    (!(f.maxScore != "" &&
       (match jsParseInt f.maxScore with
        | some n => (score : Int) > n
        | none => false)))
  else true

/-- The answer-content block of the filter (`3. Answer Content Filter`):
active only when both a question and a keyword are set; the answer is
flattened to one string (arrays joined by a space, falsy scalars giving
"") and searched case-insensitively. -/
def keywordPass (f : FilterCriteria) (r : Response) : Bool :=
  if f.questionId != "" && f.answerKeyword != "" then
    let userVal := lookupAnswer r f.questionId
    let keyword := jsToLower f.answerKeyword
    let answerStr :=
      match userVal with
      | .vArr l => String.intercalate " " l
      | v => if jsTruthy v then jsToString v else ""
    jsIncludes (jsToLower answerStr) keyword
  else true

/-- One response's passage through the filter predicate of
`filteredResponses`: the early `return false` chain rendered as the
conjunction of its blocks in source order. -/
def responsePasses (form : Form) (f : FilterCriteria) (r : Response) : Bool :=
  datePass f r && scoreBlockPass form f r && keywordPass f r

/-- The `filteredResponses` memo: the responses that pass every active
criterion, in their original order. -/
def filteredResponses (form : Form) (f : FilterCriteria) (responses : List Response) :
    List Response :=
  responses.filter (responsePasses form f)

/-- Strip factors of ten shared by mantissa and exponent, for canonical
printing (structural on the exponent). -/
def stripZeros : Int → Nat → Int × Nat
  | m, 0 => (m, 0)
  | m, e + 1 => if m % 10 == 0 then stripZeros (m / 10) e else (m, e + 1)

/-- JavaScript `String(n)` on a number of this core: integers in decimal,
terminating decimals with the minimal digit string (`8.50` prints as
"8.5"), as the shortest-roundtrip printing of ECMAScript produces on
these values. -/
def decToJSString (d : DecNum) : String :=
  let p := stripZeros d.man d.exp
  if p.2 == 0 then toString p.1
  else
    let a := p.1.natAbs
    let ip := a / 10 ^ p.2
    let fp := a % 10 ^ p.2
    let fs := toString fp
    let pad := String.mk (List.replicate (p.2 - fs.length) '0')
    (if p.1 < 0 then "-" else "") ++ toString ip ++ "." ++ pad ++ fs

/-- String form of a normalization result, JavaScript `String(...)`. -/
def normToString : NormValue → String
  | .num d => decToJSString d
  | .str s => s

/-- Is the string a canonical array-index property key per ECMAScript
(a canonical base-10 integer below 2^32 − 1: digits only, no superfluous
leading zero)? Such keys enumerate before all other string keys,
in ascending numeric order. -/
def arrayIndexOf (s : String) : Option Nat :=
  match s.data with
  | [] => none
  | c :: cs =>
    if (c :: cs).all Char.isDigit && (s == "0" || c != '0') then
      let n := digitsVal (c :: cs)
      if n ≤ 4294967294 then some n else none
    else none

/-- Insert a fresh array-index key into the entry list of a record: before
the first entry that is a larger index or not an index at all (the index
segment of the enumeration stays ascending). -/
def insBeforeIdx (n : Nat) (key : String) : List (String × Nat) → List (String × Nat)
  | [] => [(key, 1)]
  | e :: rest =>
    match arrayIndexOf e.1 with
    | some m => if n < m then (key, 1) :: e :: rest else e :: insBeforeIdx n key rest
    | none => (key, 1) :: e :: rest

/-- One step of `counts[key] = (counts[key] || 0) + 1` on a JavaScript
record, tracking `Object.entries` enumeration order: an existing key is
bumped in place; a new array-index key joins the ascending index segment;
any other new key is appended. -/
def recIncr (key : String) (l : List (String × Nat)) : List (String × Nat) :=
  if l.any (fun e => e.1 == key) then
    l.map (fun e => if e.1 == key then (e.1, e.2 + 1) else e)
  else
    match arrayIndexOf key with
    | some n => insBeforeIdx n key l
    | none => l ++ [(key, 1)]

/-- Per-question counting state: `Object.entries`-ordered answer counts
and the total token count. -/
structure QStat where
  counts : List (String × Nat)
  total : Nat
deriving DecidableEq

/-- The discrete tokens a response contributes for one question: the
elements of an array answer, the stringified value of a truthy scalar
answer, nothing otherwise. -/
def tokensFor (q : Question) (r : Response) : List String :=
  match lookupAnswer r q.id with
  | .vArr l => l
  | v => if jsTruthy v then [jsToString v] else []

/-- Counting key for one token: the normalized form for `short_answer`
questions, the raw token otherwise. -/
def countKey (q : Question) (ans : String) : String :=
  match q.type with
  | .short_answer => normToString (normalizeToNumberOrString (.vStr ans))
  | _ => ans

/-- Fold one key list into a `QStat`. -/
def bumpKeys (st : QStat) (keys : List String) : QStat :=
  keys.foldl (fun st k => ⟨recIncr k st.counts, st.total + 1⟩) st

/-- The per-question `questionStats` entry of `getAnalytics`: responses in
iteration order, each contributing its counting keys in token order. -/
def qStatFor (q : Question) (rs : List Response) : QStat :=
  rs.foldl (fun st r => bumpKeys st ((tokensFor q r).map (countKey q))) ⟨[], 0⟩

/-- Exact value of `Math.round (a / b)` for naturals with `b > 0`:
`Math.round x = ⌊x + 1/2⌋`, and `⌊a/b + 1/2⌋ = (2a + b) / (2b)` in
natural division. -/
def jsRoundDiv (a b : Nat) : Nat := (2 * a + b) / (2 * b)

/-- Does a response pass the 50% threshold of `getAnalytics`
(`total > 0 && score / total >= 0.5`)? The division is exact at these
magnitudes, and `score / total ≥ 1/2` iff `total ≤ 2·score`. -/
def passesHalf (form : Form) (r : Response) : Bool :=
  let p := calculateScore form r
  0 < p.2 && p.2 ≤ 2 * p.1

/-- The analytics report (`avgScore` is the code's
`(totalScore / n).toFixed(1)` display string, kept here as the exact
numerator/denominator pair it rounds; no claim concerns it). -/
structure Analytics where
  totalResponses : Nat
  avgScoreNum : Nat
  avgScoreDen : Nat
  formMaxPoints : Nat
  avgPercent : Nat
  passingRate : Nat
  questionStats : List (String × QStat)
deriving DecidableEq

/-- The `getAnalytics` helper over a data set (the selected form passed
explicitly): `null` on an empty set, otherwise total/average scores, the
pooled percentage, the 50%-threshold passing rate, and the per-question
answer-frequency tables. -/
def getAnalytics (form : Form) (dataSet : List Response) : Option Analytics :=
  if dataSet.isEmpty then none
  else
    let totalScore := (dataSet.map (fun r => (calculateScore form r).1)).sum
    let passingCount := dataSet.countP (fun r => passesHalf form r)
    let formMaxPoints := (form.questions.filter (fun q => q.correctAnswer != "")).length
    some
      { totalResponses := dataSet.length
        avgScoreNum := totalScore
        avgScoreDen := dataSet.length
        formMaxPoints := formMaxPoints
        avgPercent :=
          if 0 < formMaxPoints && 0 < dataSet.length then
            jsRoundDiv (totalScore * 100) (dataSet.length * formMaxPoints)
          else 0
        passingRate := jsRoundDiv (passingCount * 100) dataSet.length
        questionStats := form.questions.map (fun q => (q.id, qStatFor q dataSet)) }

/-- Insertion into a descending-by-count list, after every entry with a
count at least as large: the stable placement. -/
def insertDesc (x : String × Nat) : List (String × Nat) → List (String × Nat)
  | [] => [x]
  | y :: ys => if y.2 < x.2 then x :: y :: ys else y :: insertDesc x ys

/-- Stable sort by count descending, as `Array.prototype.sort` (stable per
ECMAScript) with comparator `([,a],[,b]) => b - a`: a stable sort under a
total preorder is unique, so insertion sort yields the same list. -/
def stableSortDesc (l : List (String × Nat)) : List (String × Nat) :=
  l.foldl (fun acc x => insertDesc x acc) []

/-- The `sortedAnswers` computation of the question-breakdown view:
`Object.entries(stats.counts)` sorted by count descending (stably), top
five kept. -/
def sortedAnswers (st : QStat) : List (String × Nat) :=
  (stableSortDesc st.counts).take 5

/-- One step of the parsing algorithm as the specification words it:
keep an accumulator and a running subtotal; a token valued at least 100
multiplies the current subtotal (an empty, i.e. zero, subtotal treated
as 1) and folds it into the accumulator, resetting the subtotal; a
smaller token adds to the subtotal; `and` is skipped. -/
def specWordStep (st : Nat × Nat) (tok : String) : Nat × Nat :=
  if tok = "and" then st
  else
    match numberWords tok with
    | some v =>
      if 100 ≤ v then (st.1 + (if st.2 = 0 then 1 else st.2) * v, 0)
      else (st.1, st.2 + v)
    | none => st

/-- Final value of the specification's parsing algorithm over a token
list: accumulator plus subtotal. -/
def specWordValue (parts : List String) : Nat :=
  (parts.foldl specWordStep (0, 0)).1 + (parts.foldl specWordStep (0, 0)).2

/-- Four responses against five one-point questions, scoring 100%, 60%,
40% and 0%: the pass-rate example data. -/
def exForm8 : Form :=
  ⟨[⟨"q1", "t", .multiple_choice, ["A", "B"], "A"⟩,
    ⟨"q2", "t", .multiple_choice, ["A", "B"], "A"⟩,
    ⟨"q3", "t", .multiple_choice, ["A", "B"], "A"⟩,
    ⟨"q4", "t", .multiple_choice, ["A", "B"], "A"⟩,
    ⟨"q5", "t", .multiple_choice, ["A", "B"], "A"⟩]⟩

/-- The four example responses for `exForm8`. -/
def exResponses8 : List Response :=
  [⟨[("q1", .vStr "A"), ("q2", .vStr "A"), ("q3", .vStr "A"),
     ("q4", .vStr "A"), ("q5", .vStr "A")], 0⟩,
   ⟨[("q1", .vStr "A"), ("q2", .vStr "A"), ("q3", .vStr "A"),
     ("q4", .vStr "B"), ("q5", .vStr "B")], 0⟩,
   ⟨[("q1", .vStr "A"), ("q2", .vStr "A"), ("q3", .vStr "B"),
     ("q4", .vStr "B"), ("q5", .vStr "B")], 0⟩,
   ⟨[("q1", .vStr "B"), ("q2", .vStr "B"), ("q3", .vStr "B"),
     ("q4", .vStr "B"), ("q5", .vStr "B")], 0⟩]

/-- All counting keys one question receives over a response list, in
iteration order (responses in list order, each contributing its tokens in
order): the encounter order of the answer-frequency table. -/
def allCountKeys (q : Question) : List Response → List String
  | [] => []
  | r :: rest => (tokensFor q r).map (countKey q) ++ allCountKeys q rest

/-- Distinct elements of a list in first-encounter order. -/
def firstOccurrences (l : List String) : List String :=
  l.foldl (fun acc t => if acc.contains t then acc else acc ++ [t]) []

/-- Key-level image of `insBeforeIdx`: place a key before the first key
that is a larger array index or no array index at all. -/
def insertEnumKey (t : String) : List String → List String
  | [] => [t]
  | k :: ks =>
    match arrayIndexOf k with
    | some m => if (arrayIndexOf t).getD 0 < m then t :: k :: ks else k :: insertEnumKey t ks
    | none => t :: k :: ks

/-- Ascending insertion sort of array-index keys by their numeric value. -/
def sortIdxAsc (l : List String) : List String :=
  l.foldl (fun acc t => insertEnumKey t acc) []

/-- The `Object.entries` enumeration order of a record built by counting
the given keys: array-index keys in ascending numeric order first, then
the remaining keys in first-encounter order. -/
def enumKeysSpec (tokens : List String) : List String :=
  sortIdxAsc ((firstOccurrences tokens).filter (fun k => (arrayIndexOf k).isSome))
    ++ (firstOccurrences tokens).filter (fun k => (arrayIndexOf k).isNone)

/-- Count stored under a key in an entry list (0 when absent). -/
def countOf (l : List (String × Nat)) (k : String) : Nat :=
  match l.find? (fun e => e.1 == k) with
  | some e => e.2
  | none => 0

/-- Fold a key list into a record's entry list with `recIncr`. -/
def countsFold (keys : List String) : List (String × Nat) :=
  keys.foldl (fun c k => recIncr k c) []

/-- A one-question form whose two responses answer "9" then "3": equal
counts whose keys are both array indices. -/
def exTieForm : Form := ⟨[⟨"q1", "t", .multiple_choice, ["3", "9"], ""⟩]⟩

/-- The two tied responses for `exTieForm`, "9" encountered first. -/
def exTieResponses : List Response :=
  [⟨[("q1", .vStr "9")], 0⟩, ⟨[("q1", .vStr "3")], 0⟩]

theorem splitGo_ne_nil (cs acc) : splitGo cs acc ≠ [] := by
  induction cs, acc using splitGo.induct <;> (rw [splitGo.eq_def]; simp_all)

theorem wordLoop_all_recognized (ps : List String) :
    ∀ total sub, (∀ p ∈ ps, p = "and" ∨ (numberWords p).isSome) →
    wordLoop ps total sub =
      some ((ps.foldl specWordStep (total, sub)).1 + (ps.foldl specWordStep (total, sub)).2) := by
  induction ps with
  | nil => intro total sub _; rfl
  | cons p ps ih =>
    intro total sub h
    have hp := h p (by simp)
    have hrest : ∀ x ∈ ps, x = "and" ∨ (numberWords x).isSome := fun x hx => h x (by simp [hx])
    rcases hp with hand | hsome
    · subst hand
      simp only [wordLoop, List.foldl_cons, specWordStep, if_pos rfl, beq_self_eq_true, if_true]
      exact ih total sub hrest
    · rcases Option.isSome_iff_exists.mp hsome with ⟨v, hv⟩
      by_cases hand : p = "and"
      · subst hand
        simp only [wordLoop, List.foldl_cons, specWordStep, beq_self_eq_true, if_true, if_pos rfl]
        exact ih total sub hrest
      · have hne : (p == "and") = false := by simp [hand]
        by_cases h100 : 100 ≤ v
        · simp only [wordLoop, List.foldl_cons, specWordStep, hne, if_neg hand, hv, if_pos h100,
            Bool.false_eq_true, if_false]
          have : (if (sub == 0) = true then 1 else sub) = (if sub = 0 then 1 else sub) := by
            by_cases hs : sub = 0 <;> simp [hs]
          rw [this]
          exact ih _ _ hrest
        · simp only [wordLoop, List.foldl_cons, specWordStep, hne, if_neg hand, hv, if_neg h100,
            Bool.false_eq_true, if_false]
          exact ih _ _ hrest

theorem wordLoop_unrecognized (ps : List String) :
    ∀ total sub, (∃ p ∈ ps, p ≠ "and" ∧ numberWords p = none) →
    wordLoop ps total sub = none := by
  induction ps with
  | nil => intro _ _ h; simp at h
  | cons p ps ih =>
    intro total sub h
    rcases h with ⟨x, hx, hxand, hxnone⟩
    rcases List.mem_cons.mp hx with hhead | htail
    · subst hhead
      have hne : (x == "and") = false := by simp [hxand]
      simp [wordLoop, hne, hxnone]
    · by_cases hand : p = "and"
      · subst hand
        simp only [wordLoop, beq_self_eq_true, if_true]
        exact ih total sub ⟨x, htail, hxand, hxnone⟩
      · have hne : (p == "and") = false := by simp [hand]
        cases hv : numberWords p with
        | none => simp [wordLoop, hne, hv]
        | some v =>
          simp only [wordLoop, hne, Bool.false_eq_true, if_false, hv]
          by_cases h100 : 100 ≤ v
          · rw [if_pos h100]; exact ih _ _ ⟨x, htail, hxand, hxnone⟩
          · rw [if_neg h100]; exact ih _ _ ⟨x, htail, hxand, hxnone⟩

/-- Claim C1: `normalizeToNumberOrString` parses whitespace/hyphen
separated number-word phrases with an accumulator and a running subtotal
(a token valued at least 100 multiplies the subtotal, an empty subtotal
counting as 1, and folds it into the accumulator; a smaller token adds to
the subtotal; `and` is skipped), and when every token is recognized
returns accumulator plus subtotal as a number; `normalize "eight"` and
`normalize "8"` are the number 8, `"twenty one"` gives 21,
`"one hundred five"` gives 105, and `"Paris"` stays the string
`"paris"`. -/
theorem claim_C1 :
    (∀ s : String,
      parseJSNumber (jsToLower (jsTrim s)) = none →
      (∀ p ∈ jsSplitSepRuns (jsToLower (jsTrim s)), p = "and" ∨ (numberWords p).isSome) →
      normalizeToNumberOrString (.vStr s) =
        .num ⟨(specWordValue (jsSplitSepRuns (jsToLower (jsTrim s))) : Int), 0⟩)
    ∧ normalizeToNumberOrString (.vStr "eight") = .num ⟨8, 0⟩
    ∧ normalizeToNumberOrString (.vStr "8") = .num ⟨8, 0⟩
    ∧ normEq (normalizeToNumberOrString (.vStr "eight")) (normalizeToNumberOrString (.vStr "8")) = true
    ∧ normalizeToNumberOrString (.vStr "twenty one") = .num ⟨21, 0⟩
    ∧ normalizeToNumberOrString (.vStr "one hundred five") = .num ⟨105, 0⟩
    ∧ normalizeToNumberOrString (.vStr "Paris") = .str "paris" := by
  refine ⟨?_, by decide, by decide, by decide, by decide, by decide, by decide⟩
  intro s hnum hrec
  have hne : jsSplitSepRuns (jsToLower (jsTrim s)) ≠ [] := splitGo_ne_nil _ _
  have hguard :
      ((jsSplitSepRuns (jsToLower (jsTrim s))).length == 0
        || ((jsSplitSepRuns (jsToLower (jsTrim s))).length == 1
            && (jsSplitSepRuns (jsToLower (jsTrim s))).headD "" == "")) = false := by
    rw [Bool.or_eq_false_iff]
    constructor
    · simpa using List.length_pos_of_ne_nil hne |>.ne'
    · rw [Bool.and_eq_false_iff]
      by_cases hlen : (jsSplitSepRuns (jsToLower (jsTrim s))).length = 1
      · right
        rcases List.length_eq_one.mp hlen with ⟨x, hx⟩
        rcases hrec x (by simp [hx]) with hand | hsome
        · simp [hx, hand]
        · rw [hx]
          simp only [List.headD_cons, beq_eq_false_iff_ne, ne_eq]
          intro hcon
          rw [hcon] at hsome
          simp [numberWords] at hsome
      · left; simpa using hlen
  have hloop := wordLoop_all_recognized _ 0 0 hrec
  simp only [normalizeToNumberOrString, jsToString, hnum, hguard, Bool.false_eq_true, if_false,
    hloop, specWordValue]

theorem claim_C1_witness :
    normalizeToNumberOrString (.vStr "Three Hundred and twelve") = .num ⟨312, 0⟩ := by
  have h := claim_C1.1 "Three Hundred and twelve" (by decide) (by decide)
  rw [h]; decide

/-- Claim C2: for every `short_answer` question with a non-empty expected
answer and a non-empty submitted string, `checkAnswer` accepts exactly
when the two sides normalize to equal same-typed values; in particular
with expected answer "8" the raw answers "8", "Eight", " eight " and "08"
are all judged correct ("08" parses numerically to 8). -/
theorem claim_C2 :
    (∀ (q : Question) (s : String), q.type = .short_answer → q.correctAnswer ≠ "" → s ≠ "" →
      checkAnswer q (.vStr s) =
        normEq (normalizeToNumberOrString (.vStr s))
               (normalizeToNumberOrString (.vStr q.correctAnswer)))
    ∧ checkAnswer ⟨"q1", "t", .short_answer, [], "8"⟩ (.vStr "8") = true
    ∧ checkAnswer ⟨"q1", "t", .short_answer, [], "8"⟩ (.vStr "Eight") = true
    ∧ checkAnswer ⟨"q1", "t", .short_answer, [], "8"⟩ (.vStr " eight ") = true
    ∧ checkAnswer ⟨"q1", "t", .short_answer, [], "8"⟩ (.vStr "08") = true := by
  refine ⟨?_, by decide, by decide, by decide, by decide⟩
  intro q s hq hc hs
  simp [checkAnswer, jsTruthy, hq, hs, hc]

theorem claim_C2_witness :
    checkAnswer ⟨"q1", "t", .short_answer, [], "8"⟩ (.vStr " eight ") =
      normEq (normalizeToNumberOrString (.vStr " eight "))
             (normalizeToNumberOrString (.vStr "8"))
    ∧ normEq (normalizeToNumberOrString (.vStr " eight "))
             (normalizeToNumberOrString (.vStr "8")) = true :=
  ⟨claim_C2.1 ⟨"q1", "t", .short_answer, [], "8"⟩ " eight " rfl (by decide) (by decide),
   by decide⟩

/-- Claim C6: whenever direct numeric parsing of the trimmed lowercased
input fails and some split token is neither `and` nor a recognized number
word, `normalizeToNumberOrString` abandons word-number parsing and
returns the whole trimmed lowercased input as a string, never a partial
numeric parse. -/
theorem claim_C6 (s : String)
    (hnum : parseJSNumber (jsToLower (jsTrim s)) = none)
    (hbad : ∃ p ∈ jsSplitSepRuns (jsToLower (jsTrim s)), p ≠ "and" ∧ numberWords p = none) :
    normalizeToNumberOrString (.vStr s) = .str (jsToLower (jsTrim s)) := by
  have hloop := wordLoop_unrecognized (jsSplitSepRuns (jsToLower (jsTrim s))) 0 0 hbad
  simp only [normalizeToNumberOrString, jsToString, hnum, hloop]
  split <;> rfl

theorem claim_C6_witness :
    normalizeToNumberOrString (.vStr " Twenty Dollars ") = .str "twenty dollars" := by
  have h := claim_C6 " Twenty Dollars " (by decide) (by decide)
  rw [h]; decide

/-- Claim C7: for every `checkbox` question with a non-empty expected
answer, `checkAnswer` on a submitted array of selected options accepts
exactly when the array contains the expected answer as a member;
over-selection is not penalized: with expected answer "B" the selection
["A","B","C"] is correct and ["A","C"] is not. -/
theorem claim_C7 :
    (∀ (q : Question) (l : List String), q.type = .checkbox → q.correctAnswer ≠ "" →
      checkAnswer q (.vArr l) = l.contains q.correctAnswer)
    ∧ checkAnswer ⟨"q1", "t", .checkbox, ["A", "B", "C"], "B"⟩ (.vArr ["A", "B", "C"]) = true
    ∧ checkAnswer ⟨"q1", "t", .checkbox, ["A", "B", "C"], "B"⟩ (.vArr ["A", "C"]) = false := by
  refine ⟨?_, by decide, by decide⟩
  intro q l hq hc
  simp [checkAnswer, jsTruthy, hq, hc]

theorem claim_C7_witness :
    checkAnswer ⟨"q1", "t", .checkbox, ["A", "B", "C"], "B"⟩ (.vArr ["A", "B", "C"]) =
      (["A", "B", "C"].contains "B")
    ∧ (["A", "B", "C"].contains "B") = true :=
  ⟨claim_C7.1 ⟨"q1", "t", .checkbox, ["A", "B", "C"], "B"⟩ ["A", "B", "C"] rfl (by decide),
   by decide⟩

/-- Claim C9: for every form, `getAnalytics` applied to an empty response
list returns `none` — no report with zero-valued fields, no degenerate
statistic. -/
theorem claim_C9 (form : Form) : getAnalytics form [] = none := rfl

/-- Claim C10: `checkAnswer` returns false whenever the raw answer value
is falsy (the number 0, the empty string, `null`, `undefined`) before any
type-specific matching runs; in particular a `short_answer` question
expecting "0" marks the numeric answer 0 incorrect even though both
sides normalize to the number 0. -/
theorem claim_C10 :
    (∀ (q : Question) (v : JSVal), jsTruthy v = false → checkAnswer q v = false)
    ∧ checkAnswer ⟨"q1", "t", .short_answer, [], "0"⟩ (.vNum 0) = false
    ∧ normEq (normalizeToNumberOrString (.vNum 0))
        (normalizeToNumberOrString (.vStr "0")) = true := by
  refine ⟨?_, by decide, by decide⟩
  intro q v hv
  simp [checkAnswer, hv]

theorem claim_C10_witness :
    checkAnswer ⟨"q1", "t", .short_answer, [], "0"⟩ (.vStr "") = false
    ∧ checkAnswer ⟨"q1", "t", .multiple_choice, ["0"], "0"⟩ .vNull = false :=
  ⟨claim_C10.1 _ _ (by decide), claim_C10.1 _ _ (by decide)⟩

theorem jsParseInt_empty : jsParseInt "" = none := rfl

/-- Claim C3: a set score bound (a non-empty bound string, including the
string "0") excludes exactly the responses whose earned points fall below
the set minimum or above the set maximum, and an unset bound is a no-op
on the score dimension — the filter predicate factors into the date
block, the two bound tests, and the keyword block. -/
theorem claim_C3 (form : Form) (f : FilterCriteria) (r : Response) (mn mx : Int)
    (hmn : f.minScore = "" ∨ jsParseInt f.minScore = some mn)
    (hmx : f.maxScore = "" ∨ jsParseInt f.maxScore = some mx) :
    responsePasses form f r =
      (datePass f r
       && ((f.minScore == "" || decide (mn ≤ (((calculateScore form r).1 : Int))))
           && (f.maxScore == "" || decide ((((calculateScore form r).1 : Int)) ≤ mx)))
       && keywordPass f r) := by
  suffices h : scoreBlockPass form f r =
      ((f.minScore == "" || decide (mn ≤ (((calculateScore form r).1 : Int))))
        && (f.maxScore == "" || decide ((((calculateScore form r).1 : Int)) ≤ mx))) by
    rw [responsePasses, h]
  rcases hmn with hmn | hmn <;> rcases hmx with hmx | hmx
  · simp [scoreBlockPass, hmn, hmx]
  · have hne : f.maxScore ≠ "" := by
      intro hcon; rw [hcon, jsParseInt_empty] at hmx; exact Option.noConfusion hmx
    simp [scoreBlockPass, hmn, hne, hmx, ← decide_not, not_lt, bne, Bool.not_not]
  · have hne : f.minScore ≠ "" := by
      intro hcon; rw [hcon, jsParseInt_empty] at hmn; exact Option.noConfusion hmn
    simp [scoreBlockPass, hmx, hne, hmn, ← decide_not, not_lt, bne, Bool.not_not]
  · have hne1 : f.minScore ≠ "" := by
      intro hcon; rw [hcon, jsParseInt_empty] at hmn; exact Option.noConfusion hmn
    have hne2 : f.maxScore ≠ "" := by
      intro hcon; rw [hcon, jsParseInt_empty] at hmx; exact Option.noConfusion hmx
    simp [scoreBlockPass, hne1, hne2, hmn, hmx, ← decide_not, not_lt, bne, Bool.not_not]

theorem claim_C3_witness :
    responsePasses ⟨[⟨"q1", "t", .multiple_choice, ["A", "B"], "A"⟩]⟩
      ⟨none, none, "1", "3", "", ""⟩ ⟨[("q1", .vStr "B")], 0⟩ = false
    ∧ responsePasses ⟨[⟨"q1", "t", .multiple_choice, ["A", "B"], "A"⟩]⟩
      ⟨none, none, "0", "", "", ""⟩ ⟨[("q1", .vStr "B")], 0⟩ = true := by
  constructor
  · rw [claim_C3 _ _ _ 1 3 (Or.inr (by decide)) (Or.inr (by decide))]
    decide
  · rw [claim_C3 _ _ _ 0 0 (Or.inr (by decide)) (Or.inl rfl)]
    decide

/-- Claim C5: when both score bounds are set and the minimum exceeds the
maximum, the filter admits no response — the empty list, with no
validation and no error. -/
theorem claim_C5 (form : Form) (f : FilterCriteria) (rs : List Response) (mn mx : Int)
    (hmn : jsParseInt f.minScore = some mn) (hmx : jsParseInt f.maxScore = some mx)
    (hlt : mx < mn) :
    filteredResponses form f rs = [] := by
  have hne1 : f.minScore ≠ "" := by
    intro hcon; rw [hcon, jsParseInt_empty] at hmn; exact Option.noConfusion hmn
  have hne2 : f.maxScore ≠ "" := by
    intro hcon; rw [hcon, jsParseInt_empty] at hmx; exact Option.noConfusion hmx
  apply List.filter_eq_nil_iff.mpr
  intro r _
  have hsc : scoreBlockPass form f r = false := by
    simp only [scoreBlockPass, hmn, hmx]
    have h1 : (f.minScore != "") = true := by simp [hne1]
    have h2 : (f.maxScore != "") = true := by simp [hne2]
    simp only [h1, h2, Bool.true_or, if_true, Bool.true_and]
    set sc : Int := ((calculateScore form r).1 : Int) with hscdef
    by_cases h : sc < mn
    · simp [h]
    · have hgt : sc > mx := by omega
      simp [h, hgt]
  simp [responsePasses, hsc]

theorem claim_C5_witness :
    filteredResponses ⟨[⟨"q1", "t", .multiple_choice, ["A", "B"], "A"⟩]⟩
      ⟨none, none, "3", "1", "", ""⟩ [⟨[("q1", .vStr "A")], 0⟩] = [] :=
  claim_C5 _ _ _ 3 1 (by decide) (by decide) (by decide)

theorem jsRoundDiv_eq_floor (a b : ℕ) (hb : 0 < b) :
    jsRoundDiv a b = ⌊((a : ℚ) / (b : ℚ)) + 1 / 2⌋₊ := by
  have hb' : ((b : ℚ)) ≠ 0 := by exact_mod_cast hb.ne'
  have key : ((a : ℚ) / (b : ℚ)) + 1 / 2 = ((2 * a + b : ℕ) : ℚ) / ((2 * b : ℕ) : ℚ) := by
    push_cast
    field_simp
    ring
  rw [key, Nat.floor_div_eq_div]
  rfl

/-- Claim C8: for every non-empty response list, `getAnalytics` counts a
response as passing exactly when its gradable total is positive and
earned/total is at least one half (zero gradable questions never pass),
and reports `passingRate = round (100 · passingCount / totalResponses)`
(rounding half up, as `Math.round`). -/
theorem claim_C8 (form : Form) (rs : List Response) (h : rs ≠ []) :
    ∃ a, getAnalytics form rs = some a
      ∧ a.passingRate =
          ⌊(100 * ((rs.countP (fun r => passesHalf form r) : ℚ)) / (rs.length : ℚ)) + 1 / 2⌋₊
      ∧ (∀ r, passesHalf form r =
            (decide (0 < (calculateScore form r).2)
              && decide ((1 : ℚ) / 2 ≤
                  ((calculateScore form r).1 : ℚ) / ((calculateScore form r).2 : ℚ))))
      ∧ (∀ r, (calculateScore form r).2 = 0 → passesHalf form r = false) := by
  have hlen : 0 < rs.length := List.length_pos_of_ne_nil h
  have hne : rs.isEmpty = false := by
    cases rs with
    | nil => exact absurd rfl h
    | cons x xs => rfl
  refine ⟨_, by rw [getAnalytics, hne]; rfl, ?_, ?_, ?_⟩
  · show jsRoundDiv (rs.countP (fun r => passesHalf form r) * 100) rs.length = _
    rw [jsRoundDiv_eq_floor _ _ hlen]
    congr 1
    push_cast
    ring
  · intro r
    rcases hp : calculateScore form r with ⟨s, t⟩
    rcases Nat.eq_zero_or_pos t with ht | ht
    · subst ht
      simp [passesHalf, hp]
    · have h1 : (0 < t) := ht
      have htq : (0 : ℚ) < (t : ℚ) := by exact_mod_cast ht
      have hiff : ((1 : ℚ) / 2 ≤ (s : ℚ) / (t : ℚ)) ↔ (t ≤ 2 * s) := by
        rw [div_le_div_iff₀ (by norm_num) htq, one_mul, mul_comm]
        exact_mod_cast Iff.rfl
      have hdec : (decide ((1 : ℚ) / 2 ≤ (s : ℚ) / (t : ℚ))) = decide (t ≤ 2 * s) :=
        decide_eq_decide.mpr hiff
      simp only [passesHalf, hp, hdec]
  · intro r ht
    simp [passesHalf, ht]

theorem claim_C8_witness :
    (getAnalytics exForm8 exResponses8).map Analytics.passingRate = some 50 := by
  obtain ⟨a, ha, h1, h2, h3⟩ := claim_C8 exForm8 exResponses8 (by decide)
  rw [ha, Option.map_some', h1]
  have hc : exResponses8.countP (fun r => passesHalf exForm8 r) = 2 := by decide
  have hl : exResponses8.length = 4 := by decide
  rw [hc, hl]
  congr 1
  rw [show (100 * ((2 : ℕ) : ℚ) / ((4 : ℕ) : ℚ) + 1 / 2 : ℚ) = ((101 : ℕ) : ℚ) / ((2 : ℕ) : ℚ) by
    push_cast; norm_num]
  rw [Nat.floor_div_eq_div]

theorem claim_C4_counterexample :
    allCountKeys ⟨"q1", "t", .multiple_choice, ["3", "9"], ""⟩ exTieResponses = ["9", "3"]
    ∧ (getAnalytics exTieForm exTieResponses).map
        (fun a => a.questionStats.map (fun p => (p.1, sortedAnswers p.2)))
      = some [("q1", [("3", 1), ("9", 1)])] := by decide

theorem insertDesc_perm (x : String × Nat) (l : List (String × Nat)) :
    (insertDesc x l).Perm (x :: l) := by
  induction l with
  | nil => exact List.Perm.refl _
  | cons y ys ih =>
    simp only [insertDesc]
    by_cases h : y.2 < x.2
    · rw [if_pos h]
    · rw [if_neg h]
      exact (ih.cons y).trans (List.Perm.swap x y ys)

theorem insertDesc_pairwise (x : String × Nat) (l : List (String × Nat))
    (h : List.Pairwise (fun a b : String × Nat => b.2 ≤ a.2) l) :
    List.Pairwise (fun a b : String × Nat => b.2 ≤ a.2) (insertDesc x l) := by
  induction l with
  | nil => simp [insertDesc]
  | cons y ys ih =>
    rcases List.pairwise_cons.mp h with ⟨hy, hys⟩
    simp only [insertDesc]
    by_cases hc : y.2 < x.2
    · rw [if_pos hc]
      refine List.pairwise_cons.mpr ⟨?_, h⟩
      intro z hz
      rcases List.mem_cons.mp hz with rfl | hzys
      · exact Nat.le_of_lt hc
      · exact Nat.le_trans (hy z hzys) (Nat.le_of_lt hc)
    · rw [if_neg hc]
      refine List.pairwise_cons.mpr ⟨?_, ih hys⟩
      intro z hz
      rcases List.mem_cons.mp ((insertDesc_perm x ys).mem_iff.mp hz) with rfl | hzys
      · exact Nat.le_of_not_lt hc
      · exact hy z hzys

theorem filter_insertDesc_ne (x : String × Nat) (l : List (String × Nat)) (c : Nat)
    (h : (x.2 == c) = false) :
    (insertDesc x l).filter (fun e => e.2 == c) = l.filter (fun e => e.2 == c) := by
  induction l with
  | nil => simp [insertDesc, h]
  | cons y ys ih =>
    simp only [insertDesc]
    by_cases hc : y.2 < x.2
    · rw [if_pos hc]
      simp [List.filter_cons, h]
    · rw [if_neg hc]
      simp [List.filter_cons, ih]

theorem filter_insertDesc_eq (x : String × Nat) (l : List (String × Nat)) (c : Nat)
    (hx : x.2 = c) (hl : List.Pairwise (fun a b : String × Nat => b.2 ≤ a.2) l) :
    (insertDesc x l).filter (fun e => e.2 == c) = l.filter (fun e => e.2 == c) ++ [x] := by
  induction l with
  | nil => simp [insertDesc, hx]
  | cons y ys ih =>
    rcases List.pairwise_cons.mp hl with ⟨hy, hys⟩
    simp only [insertDesc]
    by_cases hc : y.2 < x.2
    · rw [if_pos hc]
      have hnil : (y :: ys).filter (fun e => e.2 == c) = [] := by
        apply List.filter_eq_nil_iff.mpr
        intro z hz
        have hz2 : z.2 ≤ y.2 := by
          rcases List.mem_cons.mp hz with rfl | hzys
          · exact Nat.le_refl _
          · exact hy z hzys
        have : z.2 ≠ c := by omega
        simp [this]
      rw [hnil]
      have hxc : (x.2 == c) = true := by simp [hx]
      simp [List.filter_cons, hxc, hnil]
    · rw [if_neg hc]
      by_cases hyc : (y.2 == c) = true
      · simp [List.filter_cons, hyc, ih hys]
      · have hyc' : (y.2 == c) = false := by simpa using hyc
        simp [List.filter_cons, hyc', ih hys]

theorem sortFold_props (l : List (String × Nat)) :
    ∀ acc, List.Pairwise (fun a b : String × Nat => b.2 ≤ a.2) acc →
      (List.foldl (fun acc x => insertDesc x acc) acc l).Perm (acc ++ l)
      ∧ List.Pairwise (fun a b : String × Nat => b.2 ≤ a.2)
          (List.foldl (fun acc x => insertDesc x acc) acc l)
      ∧ ∀ c, (List.foldl (fun acc x => insertDesc x acc) acc l).filter (fun e => e.2 == c)
          = acc.filter (fun e => e.2 == c) ++ l.filter (fun e => e.2 == c) := by
  induction l with
  | nil => intro acc hacc; exact ⟨by simp, hacc, by simp⟩
  | cons x xs ih =>
    intro acc hacc
    obtain ⟨p1, p2, p3⟩ := ih (insertDesc x acc) (insertDesc_pairwise x acc hacc)
    refine ⟨?_, p2, ?_⟩
    · refine (p1.trans ?_)
      refine ((insertDesc_perm x acc).append_right xs).trans ?_
      exact List.perm_middle.symm
    · intro c
      rw [List.foldl_cons, p3 c]
      by_cases hx : (x.2 == c) = true
      · rw [filter_insertDesc_eq x acc c (by simpa using hx) hacc]
        simp [List.filter_cons, hx]
      · have hx' : (x.2 == c) = false := by simpa using hx
        rw [filter_insertDesc_ne x acc c hx']
        simp [List.filter_cons, hx']

theorem stableSortDesc_perm (l : List (String × Nat)) : (stableSortDesc l).Perm l := by
  have h := (sortFold_props l [] List.Pairwise.nil).1
  simpa [stableSortDesc] using h

theorem stableSortDesc_sorted (l : List (String × Nat)) :
    List.Pairwise (fun a b : String × Nat => b.2 ≤ a.2) (stableSortDesc l) :=
  (sortFold_props l [] List.Pairwise.nil).2.1

theorem stableSortDesc_stable (l : List (String × Nat)) (c : Nat) :
    (stableSortDesc l).filter (fun e => e.2 == c) = l.filter (fun e => e.2 == c) := by
  have h := (sortFold_props l [] List.Pairwise.nil).2.2 c
  simpa [stableSortDesc] using h

theorem bumpKeys_eq (keys : List String) : ∀ st : QStat,
    bumpKeys st keys =
      ⟨List.foldl (fun c k => recIncr k c) st.counts keys, st.total + keys.length⟩ := by
  induction keys with
  | nil => intro st; cases st; simp [bumpKeys]
  | cons k ks ih =>
    intro st
    have h := ih ⟨recIncr k st.counts, st.total + 1⟩
    simp only [bumpKeys, List.foldl_cons] at h ⊢
    rw [h]
    simp only [QStat.mk.injEq, List.length_cons]
    exact ⟨trivial, by omega⟩

theorem qStatFor_eq (q : Question) (rs : List Response) :
    qStatFor q rs = ⟨countsFold (allCountKeys q rs), (allCountKeys q rs).length⟩ := by
  suffices h : ∀ (rs : List Response) (st : QStat),
      List.foldl (fun st r => bumpKeys st ((tokensFor q r).map (countKey q))) st rs =
        ⟨List.foldl (fun c k => recIncr k c) st.counts (allCountKeys q rs),
         st.total + (allCountKeys q rs).length⟩ by
    have h0 := h rs ⟨[], 0⟩
    simpa [qStatFor, countsFold] using h0
  intro rs
  induction rs with
  | nil => intro st; cases st; simp [allCountKeys]
  | cons r rest ih =>
    intro st
    simp only [List.foldl_cons, allCountKeys]
    rw [bumpKeys_eq, ih]
    simp only [QStat.mk.injEq, List.foldl_append, List.length_append]
    exact ⟨trivial, by omega⟩

theorem countOf_cons (e : String × Nat) (l : List (String × Nat)) (k : String) :
    countOf (e :: l) k = if (e.1 == k) = true then e.2 else countOf l k := by
  by_cases h : (e.1 == k) = true
  · simp [countOf, List.find?_cons_of_pos, h]
  · have h' : (e.1 == k) = false := by simpa using h
    simp [countOf, List.find?_cons_of_neg, h']

theorem countOf_of_not_any (l : List (String × Nat)) (k : String)
    (h : l.any (fun e => e.1 == k) = false) : countOf l k = 0 := by
  induction l with
  | nil => rfl
  | cons e rest ih =>
    simp only [List.any_cons, Bool.or_eq_false_iff] at h
    rw [countOf_cons, if_neg (by simp [h.1]), ih h.2]

theorem map_fst_bump (l : List (String × Nat)) (t : String) :
    (l.map (fun e => if e.1 == t then (e.1, e.2 + 1) else e)).map Prod.fst = l.map Prod.fst := by
  rw [List.map_map]
  apply List.map_congr_left
  intro e _
  by_cases h : (e.1 == t) = true <;> simp [h, Function.comp]

theorem map_fst_insBeforeIdx (t : String) (n : Nat) (l : List (String × Nat))
    (h : arrayIndexOf t = some n) :
    (insBeforeIdx n t l).map Prod.fst = insertEnumKey t (l.map Prod.fst) := by
  induction l with
  | nil => simp [insBeforeIdx, insertEnumKey]
  | cons e rest ih =>
    simp only [insBeforeIdx, List.map_cons, insertEnumKey]
    cases he : arrayIndexOf e.1 with
    | some m =>
      rw [h]
      simp only [Option.getD_some]
      by_cases hnm : n < m
      · simp [hnm]
      · simp [hnm, ih]
    | none => simp

theorem insertEnumKey_append (t : String) (A N : List String)
    (hN : ∀ k ∈ N, arrayIndexOf k = none) :
    insertEnumKey t (A ++ N) = insertEnumKey t A ++ N := by
  induction A with
  | nil =>
    cases N with
    | nil => simp [insertEnumKey]
    | cons k ks =>
      have hk := hN k (by simp)
      simp [insertEnumKey, hk]
  | cons a A' ih =>
    simp only [List.cons_append, insertEnumKey]
    cases ha : arrayIndexOf a with
    | some m =>
      by_cases hc : (arrayIndexOf t).getD 0 < m
      · simp [hc]
      · simp [hc, ih]
    | none => simp

theorem insertEnumKey_perm (t : String) (l : List String) :
    (insertEnumKey t l).Perm (t :: l) := by
  induction l with
  | nil => exact List.Perm.refl _
  | cons k ks ih =>
    simp only [insertEnumKey]
    cases hk : arrayIndexOf k with
    | some m =>
      by_cases hc : (arrayIndexOf t).getD 0 < m
      · simp [hc]
      · simpa [hc] using (ih.cons k).trans (List.Perm.swap t k ks)
    | none => exact List.Perm.refl _

theorem sortIdxAsc_append_singleton (l : List String) (t : String) :
    sortIdxAsc (l ++ [t]) = insertEnumKey t (sortIdxAsc l) := by
  simp [sortIdxAsc, List.foldl_append]

theorem mem_sortIdxAsc (l : List String) (a : String) : a ∈ sortIdxAsc l ↔ a ∈ l := by
  suffices h : ∀ acc, a ∈ List.foldl (fun acc t => insertEnumKey t acc) acc l ↔ a ∈ acc ∨ a ∈ l by
    simpa [sortIdxAsc] using h []
  induction l with
  | nil => intro acc; simp
  | cons t ts ih =>
    intro acc
    rw [List.foldl_cons, ih]
    rw [(insertEnumKey_perm t acc).mem_iff]
    simp [List.mem_cons]
    tauto

theorem firstOccurrences_append_singleton (l : List String) (t : String) :
    firstOccurrences (l ++ [t]) =
      if (firstOccurrences l).contains t then firstOccurrences l
      else firstOccurrences l ++ [t] := by
  simp [firstOccurrences, List.foldl_append]

theorem mem_firstOccurrences (l : List String) (a : String) :
    a ∈ firstOccurrences l ↔ a ∈ l := by
  suffices h : ∀ acc,
      a ∈ List.foldl (fun acc t => if acc.contains t then acc else acc ++ [t]) acc l ↔
        a ∈ acc ∨ a ∈ l by
    simpa [firstOccurrences] using h []
  induction l with
  | nil => intro acc; simp
  | cons t ts ih =>
    intro acc
    rw [List.foldl_cons, ih]
    by_cases hc : acc.contains t = true
    · have htacc : t ∈ acc := by simpa using hc
      simp only [hc, if_true, List.mem_cons]
      constructor
      · rintro (h | h)
        · exact Or.inl h
        · exact Or.inr (Or.inr h)
      · rintro (h | rfl | h)
        · exact Or.inl h
        · exact Or.inl htacc
        · exact Or.inr h
    · have hc' : acc.contains t = false := by simpa using hc
      simp only [hc', Bool.false_eq_true, if_false, List.mem_append, List.mem_singleton,
        List.mem_cons]
      tauto

theorem contains_map_fst (l : List (String × Nat)) (t : String) :
    (l.map Prod.fst).contains t = l.any (fun e => e.1 == t) := by
  induction l with
  | nil => rfl
  | cons e rest ih =>
    have hsymm : (t == e.1) = (e.1 == t) := by
      by_cases h : t = e.1
      · simp [h]
      · simp [h, Ne.symm h]
    rw [List.map_cons, List.contains_cons, ih, List.any_cons, hsymm]

theorem mem_enumKeysSpec (keys : List String) (t : String) :
    t ∈ enumKeysSpec keys ↔ t ∈ firstOccurrences keys := by
  simp only [enumKeysSpec, List.mem_append, mem_sortIdxAsc, List.mem_filter]
  constructor
  · rintro (⟨h, _⟩ | ⟨h, _⟩) <;> exact h
  · intro h
    cases harr : arrayIndexOf t with
    | some n => exact Or.inl ⟨h, by simp [harr]⟩
    | none => exact Or.inr ⟨h, by simp [harr]⟩

theorem countOf_bump_self (l : List (String × Nat)) (t : String)
    (h : l.any (fun e => e.1 == t) = true) :
    countOf (l.map (fun e => if e.1 == t then (e.1, e.2 + 1) else e)) t = countOf l t + 1 := by
  induction l with
  | nil => simp at h
  | cons e rest ih =>
    by_cases het : (e.1 == t) = true
    · simp only [List.map_cons, if_pos het]
      rw [countOf_cons, countOf_cons, if_pos het, if_pos het]
    · have het' : (e.1 == t) = false := by simpa using het
      simp only [List.any_cons, het', Bool.false_or] at h
      simp only [List.map_cons, het', Bool.false_eq_true, if_false]
      rw [countOf_cons, countOf_cons, if_neg (by simp [het']), if_neg (by simp [het']), ih h]

theorem countOf_bump_ne (l : List (String × Nat)) (t k : String) (h : k ≠ t) :
    countOf (l.map (fun e => if e.1 == t then (e.1, e.2 + 1) else e)) k = countOf l k := by
  induction l with
  | nil => rfl
  | cons e rest ih =>
    by_cases het : (e.1 == t) = true
    · have hek : (e.1 == k) = false := by
        have : e.1 = t := by simpa using het
        simp [this, Ne.symm h]
      simp only [List.map_cons, if_pos het]
      rw [countOf_cons, countOf_cons, if_neg (by simp [hek]), if_neg (by simp [hek]), ih]
    · have het' : (e.1 == t) = false := by simpa using het
      simp only [List.map_cons, het', Bool.false_eq_true, if_false]
      rw [countOf_cons, countOf_cons, ih]

theorem countOf_insBeforeIdx_self (n : Nat) (t : String) (l : List (String × Nat))
    (h : l.any (fun e => e.1 == t) = false) :
    countOf (insBeforeIdx n t l) t = 1 := by
  induction l with
  | nil => simp [insBeforeIdx, countOf_cons]
  | cons e rest ih =>
    simp only [List.any_cons, Bool.or_eq_false_iff] at h
    simp only [insBeforeIdx]
    cases he : arrayIndexOf e.1 with
    | some m =>
      by_cases hc : n < m
      · simp only [hc, if_true]
        rw [countOf_cons, if_pos (by simp)]
      · simp only [hc, if_false]
        rw [countOf_cons, if_neg (by simp [h.1]), ih h.2]
    | none =>
      rw [countOf_cons, if_pos (by simp)]

theorem countOf_insBeforeIdx_ne (n : Nat) (t k : String) (l : List (String × Nat))
    (h : k ≠ t) :
    countOf (insBeforeIdx n t l) k = countOf l k := by
  induction l with
  | nil => simp [insBeforeIdx, countOf_cons, countOf, Ne.symm h]
  | cons e rest ih =>
    simp only [insBeforeIdx]
    cases he : arrayIndexOf e.1 with
    | some m =>
      by_cases hc : n < m
      · simp only [hc, if_true]
        rw [countOf_cons (t, 1), if_neg (by simp [Ne.symm h])]
      · simp only [hc, if_false]
        rw [countOf_cons, countOf_cons, ih]
    | none =>
      rw [countOf_cons (t, 1), if_neg (by simp [Ne.symm h])]

theorem countOf_append_single_self (l : List (String × Nat)) (t : String)
    (h : l.any (fun e => e.1 == t) = false) :
    countOf (l ++ [(t, 1)]) t = 1 := by
  induction l with
  | nil => simp [countOf_cons]
  | cons e rest ih =>
    simp only [List.any_cons, Bool.or_eq_false_iff] at h
    rw [List.cons_append, countOf_cons, if_neg (by simp [h.1]), ih h.2]

theorem countOf_append_single_ne (l : List (String × Nat)) (t k : String) (h : k ≠ t) :
    countOf (l ++ [(t, 1)]) k = countOf l k := by
  induction l with
  | nil => simp [countOf_cons, countOf, Ne.symm h]
  | cons e rest ih =>
    rw [List.cons_append, countOf_cons, countOf_cons, ih]

theorem countsFold_append_singleton (keys : List String) (t : String) :
    countsFold (keys ++ [t]) = recIncr t (countsFold keys) := by
  simp [countsFold, List.foldl_append]

/-- Enumeration-order and occurrence-count invariant of the counting
record: its `Object.entries` key order is `enumKeysSpec` of the token
stream, and each key stores its number of occurrences. -/
theorem countsFold_spec (keys : List String) :
    (countsFold keys).map Prod.fst = enumKeysSpec keys
    ∧ ∀ k, countOf (countsFold keys) k = keys.count k := by
  induction keys using List.reverseRecOn with
  | nil =>
    refine ⟨rfl, ?_⟩
    intro k
    simp [countsFold, countOf, enumKeysSpec]
  | append_singleton keys t ih =>
    obtain ⟨ihk, ihc⟩ := ih
    rw [countsFold_append_singleton]
    by_cases hmem : (countsFold keys).any (fun e => e.1 == t) = true
    · -- the key is already present: bump in place
      have htF : t ∈ firstOccurrences keys := by
        have h1 : ((countsFold keys).map Prod.fst).contains t = true := by
          rw [contains_map_fst]; exact hmem
        have h2 : t ∈ (countsFold keys).map Prod.fst := by
          simpa using h1
        rw [ihk] at h2
        exact (mem_enumKeysSpec keys t).mp h2
      have hcont : (firstOccurrences keys).contains t = true := by simpa using htF
      have henum : enumKeysSpec (keys ++ [t]) = enumKeysSpec keys := by
        simp [enumKeysSpec, firstOccurrences_append_singleton, hcont, htF]
      constructor
      · simp only [recIncr, hmem, if_true]
        rw [map_fst_bump, ihk, henum]
      · intro k
        simp only [recIncr, hmem, if_true]
        by_cases hk : k = t
        · subst hk
          rw [countOf_bump_self _ _ hmem, ihc]
          simp [List.count_append]
        · rw [countOf_bump_ne _ _ _ hk, ihc]
          have : (k == t) = false := by simp [hk]
          simp [List.count_append, List.count_singleton', this, Ne.symm hk]
    · -- fresh key
      have hmem' : (countsFold keys).any (fun e => e.1 == t) = false :=
        Bool.eq_false_iff.mpr hmem
      have htF : t ∉ firstOccurrences keys := by
        intro hcon
        have h2 : t ∈ (countsFold keys).map Prod.fst := by
          rw [ihk]; exact (mem_enumKeysSpec keys t).mpr hcon
        rcases List.mem_map.mp h2 with ⟨e, hemem, hfst⟩
        have hany : (countsFold keys).any (fun e => e.1 == t) = true :=
          List.any_eq_true.mpr ⟨e, hemem, by simp [hfst]⟩
        rw [hmem'] at hany
        exact Bool.noConfusion hany
      have hcont : (firstOccurrences keys).contains t = false := by
        cases hb : (firstOccurrences keys).contains t
        · rfl
        · exact absurd (by simpa using hb) htF
      have hF' : firstOccurrences (keys ++ [t]) = firstOccurrences keys ++ [t] := by
        rw [firstOccurrences_append_singleton]; simp [hcont, htF]
      have hcount0 : keys.count t = 0 := by
        rw [← ihc t, countOf_of_not_any _ _ hmem']
      constructor
      · simp only [recIncr, hmem', Bool.false_eq_true, if_false]
        cases hti : arrayIndexOf t with
        | some n =>
          rw [map_fst_insBeforeIdx t n _ hti, ihk]
          have hfi : (firstOccurrences (keys ++ [t])).filter (fun k => (arrayIndexOf k).isSome)
              = (firstOccurrences keys).filter (fun k => (arrayIndexOf k).isSome) ++ [t] := by
            rw [hF', List.filter_append]
            simp [hti]
          have hfn : (firstOccurrences (keys ++ [t])).filter (fun k => (arrayIndexOf k).isNone)
              = (firstOccurrences keys).filter (fun k => (arrayIndexOf k).isNone) := by
            rw [hF', List.filter_append]
            simp [hti]
          rw [enumKeysSpec, enumKeysSpec, hfi, hfn, sortIdxAsc_append_singleton]
          rw [insertEnumKey_append]
          intro k hkmem
          have := List.mem_filter.mp hkmem
          exact Option.isNone_iff_eq_none.mp this.2
        | none =>
          rw [List.map_append, ihk]
          have hfi : (firstOccurrences (keys ++ [t])).filter (fun k => (arrayIndexOf k).isSome)
              = (firstOccurrences keys).filter (fun k => (arrayIndexOf k).isSome) := by
            rw [hF', List.filter_append]
            simp [hti]
          have hfn : (firstOccurrences (keys ++ [t])).filter (fun k => (arrayIndexOf k).isNone)
              = (firstOccurrences keys).filter (fun k => (arrayIndexOf k).isNone) ++ [t] := by
            rw [hF', List.filter_append]
            simp [hti]
          rw [enumKeysSpec, enumKeysSpec, hfi, hfn]
          simp [List.append_assoc]
      · intro k
        simp only [recIncr, hmem', Bool.false_eq_true, if_false]
        cases hti : arrayIndexOf t with
        | some n =>
          by_cases hk : k = t
          · subst hk
            rw [countOf_insBeforeIdx_self _ _ _ hmem']
            simp [List.count_append, hcount0]
          · rw [countOf_insBeforeIdx_ne _ _ _ _ hk, ihc]
            have : (k == t) = false := by simp [hk]
            simp [List.count_append, List.count_singleton', this, Ne.symm hk]
        | none =>
          by_cases hk : k = t
          · subst hk
            rw [countOf_append_single_self _ _ hmem']
            simp [List.count_append, hcount0]
          · rw [countOf_append_single_ne _ _ _ hk, ihc]
            have : (k == t) = false := by simp [hk]
            simp [List.count_append, List.count_singleton', this, Ne.symm hk]

/-- Claim C4, amended: the notable answers are the top 5 keys of the
per-question table by descending occurrence count, stably sorted with
respect to the table's `Object.entries` enumeration order — which lists
keys that are canonical array-index strings (base-10 naturals below
2^32 − 1, no leading zero) first in ascending numeric order, followed by
the remaining keys in first-encounter order — rather than pure
first-encounter order for every tie. The sort is a permutation, sorted by
count descending, and on each count value preserves the table's key
order; the table's keys follow `enumKeysSpec` of the token stream and
store exact occurrence counts. -/
theorem claim_C4_amended (q : Question) (rs : List Response) :
    sortedAnswers (qStatFor q rs) = (stableSortDesc (qStatFor q rs).counts).take 5
    ∧ (stableSortDesc (qStatFor q rs).counts).Perm (qStatFor q rs).counts
    ∧ List.Pairwise (fun a b : String × Nat => b.2 ≤ a.2)
        (stableSortDesc (qStatFor q rs).counts)
    ∧ (∀ c : Nat, (stableSortDesc (qStatFor q rs).counts).filter (fun e => e.2 == c)
        = (qStatFor q rs).counts.filter (fun e => e.2 == c))
    ∧ (qStatFor q rs).counts.map Prod.fst = enumKeysSpec (allCountKeys q rs)
    ∧ (∀ k : String, countOf ((qStatFor q rs).counts) k = (allCountKeys q rs).count k) := by
  have hq := qStatFor_eq q rs
  refine ⟨rfl, stableSortDesc_perm _, stableSortDesc_sorted _,
    fun c => stableSortDesc_stable _ c, ?_, ?_⟩
  · rw [hq]; exact (countsFold_spec _).1
  · intro k; rw [hq]; exact (countsFold_spec _).2 k
